import Mathlib

/-!
Verification development for the kontext-watchdog repository
(`watchdog.py` and `pagesize.py`).

The Python sources are shallowly embedded below.  Pure computations are
translated directly; the effectful steps of `measure_req` (URL formatting,
the HTTP fetch, reading the body, page-size measurement) are abstracted as
an `Except`-valued input describing the observed outcome of the `try:`
block, and the dynamically resolved generator callables of
`generate_params` are abstracted as function-valued oracles for the values
those zero-argument callables return.
-/

set_option maxHeartbeats 1000000

namespace Watchdog

/-- The error strings appended by `measure_req` (watchdog.py lines 99, 103,
105, 108), kept as structured payloads: `sizeErr` carries the percentage
deviation and percentage threshold, `timeErr` the computed exceedance
percentage, `statusErr` the HTTP status code, and `exc` the stringified
exception of the `except` branch. -/
inductive ProbeError where
  | sizeErr (devPct thPct : ℚ)
  | timeErr (pct : ℚ)
  | statusErr (code : ℕ)
  | exc (msg : String)
  deriving DecidableEq

/-- Rendering of a probe error to its message string.  `statusErr` mirrors
`'HTTP status code %s' % nf.getcode()` exactly; for the size/time errors the
`%01.1f` float formatting is abstracted by plain rational display. -/
def renderError : ProbeError → String
  | .sizeErr d t =>
      "Response body changed by " ++ toString d ++ "% (threshold = " ++ toString t ++ "%)."
  | .timeErr p => "Loading time limit exceeded by " ++ toString p ++ "%."
  | .statusErr c => "HTTP status code " ++ toString c
  | .exc m => m

def isSizeErr : ProbeError → Bool
  | .sizeErr _ _ => true
  | _ => false

def isTimeErr : ProbeError → Bool
  | .timeErr _ => true
  | _ => false

def isStatusErr : ProbeError → Bool
  | .statusErr _ => true
  | _ => false

/-- Data observed by the successful path of `measure_req`'s `try:` block:
`sec`/`usec` are `delta.seconds` and `delta.microseconds` of the measured
`datetime` difference (line 87), `code` is `nf.getcode()`, and `size` is the
value of `pagesize.page_size(page, conf_ignore)` (line 88). -/
structure FetchData where
  sec : ℕ
  usec : ℕ
  code : ℕ
  size : ℕ
  deriving DecidableEq

/-- The dictionary returned by `measure_req` (keys `time`, `code`, `size`,
`errors`); `none` embeds Python `None`. -/
structure ProbeResult where
  time : Option ℚ
  code : Option ℕ
  size : Option ℕ
  errors : List ProbeError
  deriving DecidableEq

/-- watchdog.py line 91: `delta.seconds / 1000. + delta.microseconds / 1000.`
(the value stored under the `time` key). -/
def elapsed_time (sec usec : ℕ) : ℚ := (sec : ℚ) / 1000 + (usec : ℚ) / 1000

/-- watchdog.py lines 138-143: `abs(orig - current) / orig`. -/
def get_size_diff (orig current : ℚ) : ℚ := |orig - current| / orig

/-- Embedding of `measure_req` (watchdog.py lines 65-109).  The whole
`try:` block's effectful prefix is summarised by `io`: `.error e` means some
step (URL formatting, `urlopen`, `read`, page-size measurement) raised an
exception stringifying to `e`, and `.ok d` means the fetch succeeded with
the observations `d`.  The success branch then mirrors lines 90-105: the
size check (guarded by both `orig_size` and `resp_size_threshold` being
non-`None`), the time check against `resp_time_threshold * 1000` reporting
`ans['time'] / resp_time_threshold * 100`, and the status check
`int(nf.getcode()) / 100 == 4` (Python 2 floor division). -/
def measure_req (io : Except String FetchData) (orig_size : Option ℚ)
    (resp_size_threshold : Option ℚ) (resp_time_threshold : ℚ) : ProbeResult :=
  match io with
  | .error e => ⟨none, none, none, [.exc e]⟩
  | .ok d =>
      let t : ℚ := elapsed_time d.sec d.usec
      let sizeErrs : List ProbeError :=
        match orig_size, resp_size_threshold with
        | some o, some th =>
            let sd := get_size_diff o (d.size : ℚ)
            if sd > th then [.sizeErr (sd * 100) (th * 100)] else []
        | _, _ => []
      let timeErrs : List ProbeError :=
        if t > resp_time_threshold * 1000 then
          [.timeErr (t / resp_time_threshold * 100)]
        else []
      let statusErrs : List ProbeError :=
        if d.code / 100 = 4 then [.statusErr d.code] else []
      ⟨some t, some d.code, some d.size, sizeErrs ++ timeErrs ++ statusErrs⟩

/-- The characters Python 2 `urllib.quote` never encodes (`always_safe`). -/
def always_safe : List Char :=
  "ABCDEFGHIJKLMNOPQRSTUVWXYZabcdefghijklmnopqrstuvwxyz0123456789_.-".toList

def hexDigits : List Char := "0123456789ABCDEF".toList

/-- Per-character behaviour of Python 2 `urllib.quote` with its default
`safe='/'`: safe characters pass through, anything else (as a byte) becomes
`%XX` with uppercase hex digits. -/
def quoteChar (c : Char) : String :=
  if c ∈ always_safe ∨ c = '/' then String.singleton c
  else "%" ++ String.singleton (hexDigits.getD (c.toNat / 16) '0')
        ++ String.singleton (hexDigits.getD (c.toNat % 16) '0')

/-- `urllib.quote` (default safe set), over the characters of `s`. -/
def quote (s : String) : String := String.join (s.toList.map quoteChar)

/-- `g.rsplit('.', 1)` for a string `g` containing a `'.'`: the part before
the last dot and the part after it. -/
def rsplit_dot (g : String) : String × String :=
  let rev := g.toList.reverse
  (((rev.dropWhile (fun c => c ≠ '.')).drop 1).reverse.asString,
   (rev.takeWhile (fun c => c ≠ '.')).reverse.asString)

/-- Embedding of `generate_params` (watchdog.py lines 112-131).  The
dictionary is an association list; `ext mod fn` is the string returned by
the zero-argument callable `getattr(__import__(mod, fromlist=[]), fn)`, and
`loc g` the string returned by the zero-argument locally defined callable
named `g`.  As in the source, the dotted branch applies `urllib.quote` to
the returned value while the local branch stores it as returned. -/
def generate_params (ext : String → String → String) (loc : String → String)
    (gen : Option (List (String × String))) : List (String × String) :=
  match gen with
  | none => []
  | some g =>
      g.map (fun kg =>
        if '.' ∈ kg.2.toList then
          (kg.1, quote (ext (rsplit_dot kg.2).1 (rsplit_dot kg.2).2))
        else
          (kg.1, loc kg.2))

end Watchdog

namespace Pagesize

/-- A node of the parsed document tree: an element (tag name, attributes,
children) or a navigable string.  This embeds the BeautifulSoup tree that
`pagesize.py` manipulates; an element's text lives among its children. -/
inductive Node where
  | text (s : String)
  | elem (tag : String) (attrs : List (String × String)) (children : List Node)

/-- One step of a `Query`, as built by `page_size` (pagesize.py line 85):
the pair `(elm_name, args)` handed to `node.find_all`, where `elm_name` is
the optional tag name (`None` matches any tag) and `args` the attribute
constraints. -/
abbrev Pattern := Option String × List (String × String)

/-- Whether a node is a tag matched by `find_all(q.1, q.2)`: only elements
match; the tag name must equal `q.1` when given, and every constrained
attribute must be present with the required value.  (BeautifulSoup's
multi-valued `class` matching is simplified to attribute equality; none of
the properties below depend on the attribute-matching details.) -/
def matchesPat (q : Pattern) : Node → Bool
  | .text _ => false
  | .elem t a _ =>
      (match q.1 with
       | none => true
       | some tn => tn == t) &&
      q.2.all (fun kv => a.lookup kv.1 == some kv.2)

/-- A path from the root element to a descendant: the list of child indices
to follow.  Paths embed the object identity of tree nodes, so that the
in-place mutation `elm.clear()` can be expressed functionally. -/
abbrev Path := List ℕ

/-- The node reached from `n` by following `pa`, if any. -/
def getAt (n : Node) : Path → Option Node
  | [] => some n
  | i :: p =>
      match n with
      | .text _ => none
      | .elem _ _ cs =>
          match cs[i]? with
          | some c => getAt c p
          | none => none

/-- `elm.clear()` at the node addressed by `pa`: its children (hence all its
text) are removed, the tag and attributes are retained.  Following an
invalid path - or a path whose target was detached by an earlier clear -
leaves the tree unchanged, matching `clear()` on a detached element. -/
def clearAt : Node → Path → Node
  | .text s, _ => .text s
  | .elem t a _, [] => .elem t a []
  | .elem t a cs, i :: p => .elem t a (cs.set i (clearAt (cs.getD i (.text "")) p))

mutual

/-- Paths (relative to `n`) of all strict descendants of `n` matched by
`find_all`, in document (pre-)order: this embeds `node.find_all(q[0], q[1])`
at pagesize.py line 57, which searches every descendant recursively. -/
def find_all_paths (q : Pattern) : Node → List Path
  | .text _ => []
  | .elem _ _ cs => find_in_children q 0 cs

/-- Matches of `q` inside a list of siblings starting at child index `i`:
each child's own match comes first, then its descendants, then the later
siblings. -/
def find_in_children (q : Pattern) (i : ℕ) : List Node → List Path
  | [] => []
  | c :: rest =>
      (if matchesPat q c then [[i]] else []) ++
      (find_all_paths q c).map (fun r => i :: r) ++
      find_in_children q (i + 1) rest

end

/-- One iteration of the `while` loop of `find_elem` (pagesize.py lines
54-57): the union, over the current candidate paths, of the matches of `q`
inside the candidate's subtree. -/
def find_step (root : Node) (ts : List Path) (q : Pattern) : List Path :=
  ts.flatMap (fun pb =>
    match getAt root pb with
    | some m => (find_all_paths q m).map (fun r => pb ++ r)
    | none => [])

/-- The loop of `find_elem`: candidates are narrowed by each pattern in
turn; if a step produces no matches the loop breaks and `find_elem`
returns `[]` (lines 58-65). -/
def find_elem_go (root : Node) : List Path → List Pattern → List Path
  | ts, [] => ts
  | ts, q :: rest =>
      if find_step root ts q = [] then []
      else find_elem_go root (find_step root ts q) rest

/-- `PageSize.find_elem` (pagesize.py lines 49-65), with `root` standing for
`self._document.html`.  An empty query returns the root itself. -/
def find_elem (root : Node) (qs : List Pattern) : List Path :=
  find_elem_go root [[]] qs

/-- The successive candidate sets produced by the loop of `find_elem`,
ignoring the early `break` (after an empty step every later step is empty
as well).  `[] ∈ cand_steps root [[]] qs` states that some step's candidate
union is empty, i.e. that the rule's path fails to resolve. -/
def cand_steps (root : Node) (ts : List Path) : List Pattern → List (List Path)
  | [] => []
  | q :: rest => find_step root ts q :: cand_steps root (find_step root ts q) rest

/-- The body of `_apply_ignores` for a single rule (pagesize.py lines
44-47): find every element matched by the full query, then clear each. -/
def apply_rule (root : Node) (qs : List Pattern) : Node :=
  (find_elem root qs).foldl clearAt root

/-- `PageSize._apply_ignores` (pagesize.py lines 43-47): the rules are
applied in order against the (mutated) document. -/
def apply_ignores (root : Node) (rules : List (List Pattern)) : Node :=
  rules.foldl apply_rule root

mutual

/-- Serialization of the document back to text (`str(self._document)` at
pagesize.py line 68). -/
def render : Node → String
  | .text s => s
  | .elem t a cs =>
      "<" ++ t ++ String.join (a.map (fun kv => " " ++ kv.1 ++ "=\x22" ++ kv.2 ++ "\x22"))
        ++ ">" ++ renderList cs ++ "</" ++ t ++ ">"

def renderList : List Node → String
  | [] => ""
  | c :: cs => render c ++ renderList cs

end

/-- `PageSize.get_size` (pagesize.py lines 67-68). -/
def get_size (n : Node) : ℕ := (render n).length

/-- One `ignore_part` dictionary of the configuration (pagesize.py lines
78-85): an optional `name`, `class` and `id`. -/
structure IgnorePart where
  name : Option String
  cls : Option String
  id : Option String

/-- The `(elm_name, args)` tuple built from an `ignore_part` (pagesize.py
lines 79-85): `class` is inserted into `args` first, then `id`. -/
def to_pattern (p : IgnorePart) : Pattern :=
  (p.name,
   (match p.cls with | some c => [("class", c)] | none => []) ++
   (match p.id with | some i => [("id", i)] | none => []))

/-- `page_size` when BeautifulSoup is available (pagesize.py lines 72-88):
the parsed document (its `html` root is `root`) is filtered by the
converted ignore rules and the length of its serialization is returned.
`conf_ignore = none` embeds the `None` default replaced by `()`. -/
def page_size (root : Node) (conf_ignore : Option (List (List IgnorePart))) : ℕ :=
  let rules := (conf_ignore.getD []).map (fun r => r.map to_pattern)
  get_size (apply_ignores root rules)

/-- `page_size` when BeautifulSoup is unavailable (pagesize.py lines
89-91): the raw byte length of `html_code` is returned and one
warning-level diagnostic is emitted by this call (line 90 logs
unconditionally).  The result pairs the returned value with the number of
warnings the call emits. -/
def page_size_noBs4 (html_code : List ℕ) (conf_ignore : Option (List (List IgnorePart))) :
    ℕ × ℕ :=
  (html_code.length, 1)

/-- Total warnings emitted by a sequence of degraded-mode calls. -/
def warnings_emitted (calls : List (List ℕ × Option (List (List IgnorePart)))) : ℕ :=
  (calls.map (fun c => (page_size_noBs4 c.1 c.2).2)).sum

/-! ### The "cleared version of" simulation relation

`Sub n' n` states that `n'` is obtained from `n` by emptying the children of
some of its elements (exactly the effect a sequence of `elm.clear()` calls
can have on a tree).  Tags and attributes are never changed and siblings are
never reindexed, which is what makes the second run of the filter find only
already-cleared elements. -/

mutual

inductive Sub : Node → Node → Prop
  | text (s : String) : Sub (.text s) (.text s)
  | cleared (t : String) (a : List (String × String)) (cs : List Node) :
      Sub (.elem t a []) (.elem t a cs)
  | congr (t : String) (a : List (String × String)) {cs' cs : List Node} :
      Subs cs' cs → Sub (.elem t a cs') (.elem t a cs)

inductive Subs : List Node → List Node → Prop
  | nil : Subs [] []
  | cons {c' c : Node} {cs' cs : List Node} :
      Sub c' c → Subs cs' cs → Subs (c' :: cs') (c :: cs)

end

mutual

theorem sub_refl : ∀ n : Node, Sub n n
  | .text s => Sub.text s
  | .elem t a cs => Sub.congr t a (subs_refl cs)

theorem subs_refl : ∀ cs : List Node, Subs cs cs
  | [] => Subs.nil
  | c :: cs => Subs.cons (sub_refl c) (subs_refl cs)

end

mutual

theorem sub_trans : ∀ (b a c : Node), Sub a b → Sub b c → Sub a c
  | .text _, _, _, h1, h2 => by cases h1; exact h2
  | .elem t ats cs', a, c, h1, h2 => by
      cases h2 with
      | cleared =>
          cases h1 with
          | cleared => exact Sub.cleared _ _ _
          | congr _ _ hs => cases hs; exact Sub.cleared _ _ _
      | congr _ _ hs2 =>
          cases h1 with
          | cleared => exact Sub.cleared _ _ _
          | congr _ _ hs1 => exact Sub.congr _ _ (subs_trans cs' _ _ hs1 hs2)

theorem subs_trans : ∀ (bs xs zs : List Node), Subs xs bs → Subs bs zs → Subs xs zs
  | [], _, _, h1, h2 => by cases h1; exact h2
  | b :: bs, xs, zs, h1, h2 => by
      cases h1 with
      | cons hab hsab =>
          cases h2 with
          | cons hbc hsbc =>
              exact Subs.cons (sub_trans b _ _ hab hbc) (subs_trans bs _ _ hsab hsbc)

end

theorem matches_sub {q : Pattern} {m' m : Node} (h : Sub m' m) :
    matchesPat q m' = matchesPat q m := by
  cases h <;> rfl

theorem subs_getElem? : ∀ (i : ℕ) {cs' cs : List Node} {c' : Node},
    Subs cs' cs → cs'[i]? = some c' → ∃ c, cs[i]? = some c ∧ Sub c' c := by
  intro i
  induction i with
  | zero =>
      intro cs' cs c' hs hg
      cases hs with
      | nil => simp at hg
      | cons h ht =>
          simp only [List.getElem?_cons_zero, Option.some.injEq] at hg
          subst hg
          exact ⟨_, by simp [List.getElem?_cons_zero], h⟩
  | succ n ih =>
      intro cs' cs c' hs hg
      cases hs with
      | nil => simp at hg
      | cons h ht =>
          obtain ⟨c, hc1, hc2⟩ := ih ht (by simpa using hg)
          exact ⟨c, by simpa using hc1, hc2⟩

theorem getAt_sub : ∀ (pa : Path) {n' n m' : Node}, Sub n' n →
    getAt n' pa = some m' → ∃ m, getAt n pa = some m ∧ Sub m' m := by
  intro pa
  induction pa with
  | nil =>
      intro n' n m' h hg
      simp only [getAt, Option.some.injEq] at hg
      subst hg
      exact ⟨n, rfl, h⟩
  | cons i p ih =>
      intro n' n m' h hg
      cases n' with
      | text s => simp [getAt] at hg
      | elem t a cs' =>
          simp only [getAt] at hg
          rcases hq : cs'[i]? with _ | c'
          · simp only [hq] at hg
            exact Option.noConfusion hg
          · simp only [hq] at hg
            cases h with
            | cleared => simp at hq
            | congr _ _ hs =>
                obtain ⟨c, hc1, hc2⟩ := subs_getElem? i hs hq
                obtain ⟨m, hm1, hm2⟩ := ih hc2 hg
                exact ⟨m, by simp [getAt, hc1, hm1], hm2⟩

theorem set_of_getElem? {α : Type} : ∀ (l : List α) (i : ℕ) (a : α),
    l[i]? = some a → l.set i a = l
  | [], i, a => by simp
  | x :: xs, 0, a => by
      intro h
      simp only [List.getElem?_cons_zero, Option.some.injEq] at h
      simp [h]
  | x :: xs, n + 1, a => by
      intro h
      simp only [List.getElem?_cons_succ] at h
      simp [set_of_getElem? xs n a h]

theorem getD_of_getElem? {α : Type} {l : List α} {i : ℕ} {c : α} (d : α)
    (h : l[i]? = some c) : l.getD i d = c := by
  simp [List.getD_eq_getElem?_getD, h]

theorem subs_set : ∀ (cs : List Node) (i : ℕ) (c' : Node),
    (∀ c, cs[i]? = some c → Sub c' c) → Subs (cs.set i c') cs := by
  intro cs
  induction cs with
  | nil => intro i c' _; simpa using Subs.nil
  | cons x xs ih =>
      intro i c' h
      cases i with
      | zero => exact Subs.cons (h x (by simp)) (subs_refl xs)
      | succ n =>
          exact Subs.cons (sub_refl x) (ih n c' (fun c hc => h c (by simpa using hc)))

theorem clearAt_sub : ∀ (pa : Path) (n : Node), Sub (clearAt n pa) n := by
  intro pa
  induction pa with
  | nil =>
      intro n
      cases n with
      | text s => exact Sub.text s
      | elem t a cs => exact Sub.cleared t a cs
  | cons i p ih =>
      intro n
      cases n with
      | text s => exact Sub.text s
      | elem t a cs =>
          refine Sub.congr t a (subs_set cs i _ (fun c hc => ?_))
          rw [getD_of_getElem? (.text "") hc]
          exact ih c

/-- The content of the node addressed by `pa` in `n` is empty (trivially so
when the path is invalid or addresses a text node). -/
def emptyAt (n : Node) (pa : Path) : Prop :=
  ∀ t a cs, getAt n pa = some (.elem t a cs) → cs = []

theorem emptyAt_sub {n' n : Node} {pa : Path} (h : Sub n' n) (he : emptyAt n pa) :
    emptyAt n' pa := by
  intro t a cs hg
  obtain ⟨m, hm, hsub⟩ := getAt_sub pa h hg
  cases hsub with
  | cleared => rfl
  | congr _ _ hs =>
      have h0 := he t a _ hm
      subst h0
      cases hs
      rfl

theorem emptyAt_clearAt_self : ∀ (pa : Path) (n : Node), emptyAt (clearAt n pa) pa := by
  intro pa
  induction pa with
  | nil =>
      intro n t a cs hg
      cases n with
      | text s => simp [clearAt, getAt] at hg
      | elem t0 a0 cs0 =>
          simp only [clearAt, getAt, Option.some.injEq, Node.elem.injEq] at hg
          exact hg.2.2.symm
  | cons i p ih =>
      intro n t a cs hg
      cases n with
      | text s => simp [clearAt, getAt] at hg
      | elem t0 a0 cs0 =>
          simp only [clearAt, getAt] at hg
          rcases hq : (cs0.set i (clearAt (cs0.getD i (.text "")) p))[i]? with _ | c'
          · simp only [hq] at hg
            exact Option.noConfusion hg
          · simp only [hq] at hg
            rw [List.getElem?_set] at hq
            simp only [if_pos rfl] at hq
            by_cases hlt : i < cs0.length
            · rw [if_pos hlt] at hq
              cases hq
              exact ih (cs0.getD i (.text "")) t a cs hg
            · rw [if_neg hlt] at hq; cases hq

theorem clearAt_of_emptyAt : ∀ (pa : Path) (n : Node), emptyAt n pa → clearAt n pa = n := by
  intro pa
  induction pa with
  | nil =>
      intro n he
      cases n with
      | text s => rfl
      | elem t a cs =>
          have h0 := he t a cs (by simp [getAt])
          subst h0
          rfl
  | cons i p ih =>
      intro n he
      cases n with
      | text s => rfl
      | elem t a cs =>
          show Node.elem t a (cs.set i (clearAt (cs.getD i (.text "")) p)) = Node.elem t a cs
          rcases hq : cs[i]? with _ | c
          · have hlen : cs.length ≤ i := by simpa using hq
            rw [List.set_eq_of_length_le hlen]
          · have hd : cs.getD i (.text "") = c := getD_of_getElem? _ hq
            rw [hd]
            have hce : clearAt c p = c := by
              refine ih c (fun t' a' cs' hg => he t' a' cs' ?_)
              simp [getAt, hq, hg]
            rw [hce, set_of_getElem? cs i c hq]

mutual

theorem find_all_paths_sub : ∀ (n' : Node) {n : Node} (q : Pattern) (pa : Path),
    Sub n' n → pa ∈ find_all_paths q n' → pa ∈ find_all_paths q n
  | .text _, n, q, pa, h, hm => by simp [find_all_paths] at hm
  | .elem t a cs', n, q, pa, h, hm => by
      cases h with
      | cleared => simp [find_all_paths, find_in_children] at hm
      | congr _ _ hs =>
          simp only [find_all_paths] at hm ⊢
          exact find_in_children_sub cs' q 0 pa hs hm

theorem find_in_children_sub : ∀ (cs' : List Node) {cs : List Node} (q : Pattern)
    (i : ℕ) (pa : Path),
    Subs cs' cs → pa ∈ find_in_children q i cs' → pa ∈ find_in_children q i cs
  | [], cs, q, i, pa, hs, hm => by simp [find_in_children] at hm
  | c' :: rest', cs, q, i, pa, hs, hm => by
      cases hs with
      | cons hc hrest =>
          simp only [find_in_children, List.mem_append] at hm ⊢
          rcases hm with (hm | hm) | hm
          · rw [matches_sub hc] at hm
            exact Or.inl (Or.inl hm)
          · rcases List.mem_map.mp hm with ⟨r, hr, hpa⟩
            exact Or.inl (Or.inr (List.mem_map.mpr
              ⟨r, find_all_paths_sub c' q r hc hr, hpa⟩))
          · exact Or.inr (find_in_children_sub rest' q (i + 1) pa hrest hm)

end

theorem find_step_sub {n' n : Node} (h : Sub n' n) (ts' ts : List Path)
    (hts : ∀ pa ∈ ts', pa ∈ ts) (q : Pattern) :
    ∀ pa ∈ find_step n' ts' q, pa ∈ find_step n ts q := by
  intro pa hm
  rw [find_step, List.mem_flatMap] at hm ⊢
  obtain ⟨pb, hpb, hmm⟩ := hm
  refine ⟨pb, hts pb hpb, ?_⟩
  rcases hq : getAt n' pb with _ | m'
  · simp only [hq] at hmm
    exact absurd hmm (List.not_mem_nil pa)
  · simp only [hq] at hmm
    rcases List.mem_map.mp hmm with ⟨r, hr, hpa⟩
    obtain ⟨m, hm2, hsub⟩ := getAt_sub pb h hq
    simp only [hm2]
    exact List.mem_map.mpr ⟨r, find_all_paths_sub m' q r hsub hr, hpa⟩

theorem find_elem_go_sub : ∀ (qs : List Pattern) {n' n : Node} (ts' ts : List Path),
    Sub n' n → (∀ pa ∈ ts', pa ∈ ts) →
    ∀ pa ∈ find_elem_go n' ts' qs, pa ∈ find_elem_go n ts qs := by
  intro qs
  induction qs with
  | nil =>
      intro n' n ts' ts h hts pa hm
      exact hts pa hm
  | cons q rest ih =>
      intro n' n ts' ts h hts pa hm
      simp only [find_elem_go] at hm ⊢
      by_cases hnew : find_step n' ts' q = []
      · rw [if_pos hnew] at hm
        exact absurd hm (List.not_mem_nil pa)
      · rw [if_neg hnew] at hm
        have hsub := find_step_sub h ts' ts hts q
        have hne : find_step n ts q ≠ [] := by
          intro h0
          rcases List.exists_mem_of_ne_nil _ hnew with ⟨x, hx⟩
          have hx2 := hsub x hx
          rw [h0] at hx2
          exact absurd hx2 (List.not_mem_nil x)
        rw [if_neg hne]
        exact ih _ _ h hsub pa hm

theorem find_elem_go_of_empty_step : ∀ (qs : List Pattern) (root : Node) (ts : List Path),
    [] ∈ cand_steps root ts qs → find_elem_go root ts qs = [] := by
  intro qs
  induction qs with
  | nil => intro root ts h; simp [cand_steps] at h
  | cons q rest ih =>
      intro root ts h
      simp only [cand_steps, List.mem_cons] at h
      simp only [find_elem_go]
      rcases h with h | h
      · rw [if_pos h.symm]
      · by_cases hq : find_step root ts q = []
        · rw [if_pos hq]
        · rw [if_neg hq]
          exact ih root _ h

theorem sub_foldl_clear : ∀ (L : List Path) (acc : Node), Sub (L.foldl clearAt acc) acc := by
  intro L
  induction L with
  | nil => intro acc; exact sub_refl acc
  | cons pb rest ih =>
      intro acc
      exact sub_trans _ _ _ (ih (clearAt acc pb)) (clearAt_sub pb acc)

theorem emptyAt_foldl_clear : ∀ (L : List Path) (acc : Node) (pa : Path),
    emptyAt acc pa → emptyAt (L.foldl clearAt acc) pa := by
  intro L
  induction L with
  | nil => intro acc pa h; exact h
  | cons pb rest ih =>
      intro acc pa h
      exact ih _ _ (emptyAt_sub (clearAt_sub pb acc) h)

theorem emptyAt_mem_foldl : ∀ (L : List Path) (acc : Node) (pa : Path),
    pa ∈ L → emptyAt (L.foldl clearAt acc) pa := by
  intro L
  induction L with
  | nil => intro _ _ h; cases h
  | cons pb rest ih =>
      intro acc pa h
      rcases List.mem_cons.mp h with h | h
      · subst h
        exact emptyAt_foldl_clear rest _ _ (emptyAt_clearAt_self pa acc)
      · exact ih _ _ h

theorem foldl_clear_of_emptyAt : ∀ (L : List Path) (acc : Node),
    (∀ pa ∈ L, emptyAt acc pa) → L.foldl clearAt acc = acc := by
  intro L
  induction L with
  | nil => intro acc _; rfl
  | cons pb rest ih =>
      intro acc h
      have h0 : clearAt acc pb = acc := clearAt_of_emptyAt pb acc (h pb (by simp))
      show List.foldl clearAt (clearAt acc pb) rest = acc
      rw [h0]
      exact ih acc (fun pa hpa => h pa (by simp [hpa]))

theorem sub_apply_rule (root : Node) (qs : List Pattern) : Sub (apply_rule root qs) root :=
  sub_foldl_clear _ root

theorem sub_apply_ignores : ∀ (rules : List (List Pattern)) (root : Node),
    Sub (apply_ignores root rules) root := by
  intro rules
  induction rules with
  | nil => intro root; exact sub_refl root
  | cons r rest ih =>
      intro root
      exact sub_trans _ _ _ (ih (apply_rule root r)) (sub_apply_rule root r)

theorem emptyAt_apply_ignores : ∀ (rules : List (List Pattern)) {root : Node} {pa : Path},
    emptyAt root pa → emptyAt (apply_ignores root rules) pa := by
  intro rules
  induction rules with
  | nil => intro root pa h; exact h
  | cons r rest ih =>
      intro root pa h
      exact ih (emptyAt_foldl_clear _ _ _ h)

/-- Once a full pass of `_apply_ignores` has run, every element any of its
rules can still find is already cleared, so re-applying any of the rules to
the final document is the identity. -/
theorem apply_rule_fix : ∀ (rules : List (List Pattern)) (root T' : Node),
    Sub T' (apply_ignores root rules) → ∀ R ∈ rules, apply_rule T' R = T' := by
  intro rules
  induction rules with
  | nil => intro root T' h R hR; cases hR
  | cons R0 rest ih =>
      intro root T' h R hR
      have hTn_T1 : Sub (apply_ignores root (R0 :: rest)) (apply_rule root R0) :=
        sub_apply_ignores rest (apply_rule root R0)
      rcases List.mem_cons.mp hR with hR0 | hmem
      · subst hR0
        apply foldl_clear_of_emptyAt
        intro pa hpa
        have hT'T0 : Sub T' root :=
          sub_trans _ _ _ (sub_trans _ _ _ h hTn_T1) (sub_apply_rule root R)
        have hfound : pa ∈ find_elem root R :=
          find_elem_go_sub R _ _ hT'T0 (fun x hx => hx) pa hpa
        have h1 : emptyAt (apply_rule root R) pa := emptyAt_mem_foldl _ _ _ hfound
        have h2 : emptyAt (apply_ignores (apply_rule root R) rest) pa :=
          emptyAt_apply_ignores rest h1
        exact emptyAt_sub h h2
      · exact ih (apply_rule root R0) T' h R hmem

theorem foldl_of_fix {α : Type} (f : Node → α → Node) :
    ∀ (l : List α) (x : Node), (∀ a ∈ l, f x a = x) → l.foldl f x = x := by
  intro l
  induction l with
  | nil => intro x _; rfl
  | cons a rest ih =>
      intro x h
      show List.foldl f (f x a) rest = x
      rw [h a (by simp)]
      exact ih x (fun b hb => h b (by simp [hb]))

theorem warnings_emitted_eq_length :
    ∀ calls : List (List ℕ × Option (List (List IgnorePart))),
      warnings_emitted calls = calls.length := by
  intro calls
  induction calls with
  | nil => rfl
  | cons c rest ih =>
      simp only [warnings_emitted, List.map_cons, List.sum_cons, List.length_cons] at ih ⊢
      rw [ih, page_size_noBs4]
      omega

/-- Claim C7 (confirmed): `_apply_ignores` is idempotent.  Applying the
structural filter a second time with the same rules leaves the document of
the first application unchanged (and in particular its size unchanged):
every element the second pass can find is already cleared by the first
pass, so clearing it again is a no-op. -/
theorem structural_filter_idempotent : ∀ (root : Node) (rules : List (List Pattern)),
    apply_ignores (apply_ignores root rules) rules = apply_ignores root rules ∧
    get_size (apply_ignores (apply_ignores root rules) rules) =
      get_size (apply_ignores root rules) := by
  intro root rules
  have hfix : ∀ R ∈ rules,
      apply_rule (apply_ignores root rules) R = apply_ignores root rules :=
    apply_rule_fix rules root _ (sub_refl _)
  have h : apply_ignores (apply_ignores root rules) rules = apply_ignores root rules :=
    foldl_of_fix apply_rule rules _ hfix
  exact ⟨h, by rw [h]⟩

/-- Claim C8 (confirmed): an ignore rule with a step whose candidate union
is empty performs no removal and is not an error: `find_elem` returns `[]`,
the document is untouched, and the measured page size equals the size
measured with no ignore rules at all. -/
theorem unresolved_rule_noop : ∀ (root : Node) (rule : List IgnorePart),
    [] ∈ cand_steps root [[]] (rule.map to_pattern) →
    apply_ignores root [rule.map to_pattern] = root ∧
    page_size root (some [rule]) = page_size root none := by
  intro root rule h
  have hfe : find_elem root (rule.map to_pattern) = [] :=
    find_elem_go_of_empty_step _ root [[]] h
  have har : apply_rule root (rule.map to_pattern) = root := by
    rw [apply_rule, hfe]
    rfl
  constructor
  · show apply_rule root (rule.map to_pattern) = root
    exact har
  · simp [page_size, apply_ignores, har]

/-- Witness for claim C8 at a concrete document and a rule whose only
pattern (tag `div`) matches nothing. -/
theorem unresolved_rule_noop_w :
    ([] ∈ cand_steps (Node.elem "html" [] [Node.text "x"]) [[]]
        ([({ name := some "div", cls := none, id := none } : IgnorePart)].map to_pattern)) ∧
    page_size (Node.elem "html" [] [Node.text "x"])
        (some [[{ name := some "div", cls := none, id := none }]]) =
      page_size (Node.elem "html" [] [Node.text "x"]) none :=
  ⟨by simp [cand_steps, find_step, getAt, find_all_paths, find_in_children, matchesPat, to_pattern],
   (unresolved_rule_noop _ _
      (by simp [cand_steps, find_step, getAt, find_all_paths, find_in_children, matchesPat, to_pattern])).2⟩

/-- Claim C10 (confirmed): a rule with zero patterns resolves to the root
element itself (`find_elem` returns it), so applying the rule clears the
whole content (children and text) of the root - it is not a no-op on a
document with content. -/
theorem empty_rule_clears_root : ∀ (t : String) (a : List (String × String)) (cs : List Node),
    find_elem (.elem t a cs) [] = [[]] ∧
    apply_ignores (.elem t a cs) [[]] = .elem t a [] ∧
    (cs ≠ [] → apply_ignores (.elem t a cs) [[]] ≠ .elem t a cs) := by
  intro t a cs
  refine ⟨rfl, rfl, fun hcs h => ?_⟩
  rw [show apply_ignores (Node.elem t a cs) [[]] = Node.elem t a [] from rfl] at h
  injection h with h3 h4 h5
  exact hcs h5.symm

/-- Witness for claim C10: on a root with one text child, the empty rule
changes the document. -/
theorem empty_rule_clears_root_w :
    ([Node.text "x"] ≠ ([] : List Node)) ∧
    apply_ignores (Node.elem "html" [] [Node.text "x"]) [[]] ≠
      Node.elem "html" [] [Node.text "x"] :=
  ⟨by simp, (empty_rule_clears_root "html" [] [Node.text "x"]).2.2 (by simp)⟩

/-- Claim C9 counterexample: in degraded mode (BeautifulSoup unavailable)
the warning is logged on every call - two calls emit two warnings, not
exactly one across repeated calls. -/
theorem degraded_double_warning_cx :
    warnings_emitted [([], none), ([], none)] = 2 ∧ (2 : ℕ) ≠ 1 :=
  ⟨rfl, by decide⟩

/-- Claim C9 (amended): when parsing capability is unavailable, `page_size`
returns the raw byte length of its input unmodified for every input and
every ignore-rule set, and emits one warning-level diagnostic per call (so
`n` calls emit `n` warnings, not one overall). -/
theorem degraded_raw_length_warn_per_call :
    ∀ (html_code : List ℕ) (conf : Option (List (List IgnorePart))),
      page_size_noBs4 html_code conf = (html_code.length, 1) ∧
      ∀ calls : List (List ℕ × Option (List (List IgnorePart))),
        warnings_emitted calls = calls.length :=
  fun _ _ => ⟨rfl, warnings_emitted_eq_length⟩

end Pagesize

namespace Watchdog

/-- The errors list of a successful probe, spelled out: size errors, then
time errors, then status errors, exactly as appended by lines 96-105. -/
theorem errors_ok (d : FetchData) (o szth : Option ℚ) (tth : ℚ) :
    (measure_req (.ok d) o szth tth).errors =
      (match o, szth with
       | some ov, some tv =>
           if get_size_diff ov (d.size : ℚ) > tv then
             [ProbeError.sizeErr (get_size_diff ov (d.size : ℚ) * 100) (tv * 100)]
           else []
       | _, _ => []) ++
      (if elapsed_time d.sec d.usec > tth * 1000 then
        [ProbeError.timeErr (elapsed_time d.sec d.usec / tth * 100)]
       else []) ++
      (if d.code / 100 = 4 then [ProbeError.statusErr d.code] else []) := rfl

/-- Claim C1 counterexample: a fetch of 0 s + 999000 µs records the time
value 999 and, with `resp_time_threshold = 1/2`, appends exactly one time
error whose percentage is `999 / (1/2) * 100 = 199800` - not the claim's
`elapsed / (timeThreshold * 1000) * 100 = 999 / 500 * 100 = 199.8`. -/
theorem time_check_divisor_cx :
    (measure_req (.ok ⟨0, 999000, 200, 0⟩) none none (1 / 2)).errors
      = [ProbeError.timeErr 199800] ∧
    (199800 : ℚ) ≠ 999 / ((1 / 2) * 1000) * 100 := by
  constructor
  · rw [errors_ok]
    norm_num [elapsed_time]
  · norm_num

/-- Claim C1 (amended): the time check appends exactly one time error iff
the recorded time value exceeds `resp_time_threshold * 1000`, but the
percentage it reports is `recorded / resp_time_threshold * 100` - the code
divides by the threshold in seconds, not by the millisecond limit
`resp_time_threshold * 1000`. -/
theorem time_check_amended : ∀ (d : FetchData) (o szth : Option ℚ) (tth : ℚ), tth ≠ 0 →
    (measure_req (.ok d) o szth tth).errors.filter isTimeErr =
      if elapsed_time d.sec d.usec > tth * 1000 then
        [ProbeError.timeErr (elapsed_time d.sec d.usec / tth * 100)]
      else [] := by
  intro d o szth tth _
  rcases o with _ | ov <;> rcases szth with _ | tv <;>
    simp only [errors_ok, List.filter_append] <;>
    split_ifs <;> simp [isTimeErr, isSizeErr, isStatusErr]

/-- Witness for claim C1's amended theorem at a concrete input: threshold
one half second, recorded value 600, reported percentage 120000. -/
theorem time_check_amended_w :
    ((1 : ℚ) / 2 ≠ 0) ∧
    (measure_req (.ok ⟨0, 600000, 200, 0⟩) none none (1 / 2)).errors.filter isTimeErr
      = [ProbeError.timeErr 120000] := by
  refine ⟨by norm_num, ?_⟩
  rw [time_check_amended ⟨0, 600000, 200, 0⟩ none none (1 / 2) (by norm_num)]
  norm_num [elapsed_time]

/-- Claim C2 (code bug): for a wall-clock duration of 5 whole seconds plus
200000 microseconds the code's recorded `time` value is
`5 / 1000 + 200000 / 1000 = 200.005`, whereas the elapsed time in
milliseconds is `5 * 1000 + 200000 / 1000 = 5200`. -/
theorem elapsed_time_not_millis :
    elapsed_time 5 200000 = 40001 / 200 ∧
    ((5 : ℚ) * 1000 + 200000 / 1000 = 5200) ∧
    elapsed_time 5 200000 ≠ (5 : ℚ) * 1000 + 200000 / 1000 := by
  refine ⟨?_, by norm_num, ?_⟩ <;> norm_num [elapsed_time]

/-- Claim C3 counterexample: a locally resolved generator returning
`"a b"` is stored unencoded in the output map, although its percent
encoding would be `"a%20b"`. -/
theorem local_generator_unquoted_cx :
    generate_params (fun _ _ => "") (fun _ => "a b") (some [("k", "g")]) = [("k", "a b")] ∧
    "a b" ≠ quote "a b" ∧ quote "a b" = "a%20b" := by
  refine ⟨?_, by decide, by decide⟩
  rfl

/-- Claim C3 (amended): every resolved callable is invoked with no
arguments, but only the separator (external-module) branch percent-encodes
the returned string; a locally registered callable's return value is placed
in the output map unencoded. -/
theorem generate_params_amended : ∀ (ext : String → String → String) (loc : String → String)
    (k g : String),
    generate_params ext loc (some [(k, g)]) =
      [(k, if '.' ∈ g.toList then quote (ext (rsplit_dot g).1 (rsplit_dot g).2) else loc g)] ∧
    quote "a b" = "a%20b" := by
  intro ext loc k g
  refine ⟨?_, by decide⟩
  simp only [generate_params, List.map_cons, List.map_nil]
  split_ifs <;> rfl

/-- Claim C4 (confirmed): whenever any step of the `try:` block raises, the
returned result has `time`, `code` and `size` all `None` and its error list
is exactly the one stringified exception - no partial fields; totality of
`measure_req` embeds "never raises to its caller". -/
theorem exception_returns_all_null : ∀ (e : String) (o szth : Option ℚ) (tth : ℚ),
    measure_req (.error e) o szth tth = ⟨none, none, none, [.exc e]⟩ ∧
    (measure_req (.error e) o szth tth).errors.length = 1 :=
  fun _ _ _ _ => ⟨rfl, rfl⟩

/-- Claim C5 (confirmed): a status error naming the code is appended
exactly when `code / 100 = 4`, i.e. exactly for codes 400-499; the
rendered error for 404 contains "404", and status 500 produces no status
error. -/
theorem status_check_4xx : ∀ (d : FetchData) (o szth : Option ℚ) (tth : ℚ),
    ((measure_req (.ok d) o szth tth).errors.filter isStatusErr =
      if 400 ≤ d.code ∧ d.code ≤ 499 then [ProbeError.statusErr d.code] else []) ∧
    "404".toList <:+: (renderError (.statusErr 404)).toList ∧
    (measure_req (.ok ⟨0, 0, 500, 0⟩) o szth tth).errors.filter isStatusErr = [] := by
  intro d o szth tth
  refine ⟨?_, by decide, ?_⟩
  · have hiff : (d.code / 100 = 4) = (400 ≤ d.code ∧ d.code ≤ 499) := by
      apply propext
      constructor <;> intro h <;> omega
    rcases o with _ | ov <;> rcases szth with _ | tv <;>
      simp only [errors_ok, List.filter_append, ← hiff] <;>
      split_ifs <;> simp [isTimeErr, isSizeErr, isStatusErr]
  · rcases o with _ | ov <;> rcases szth with _ | tv <;>
      simp only [errors_ok, List.filter_append] <;>
      split_ifs <;> simp_all [isTimeErr, isSizeErr, isStatusErr]

/-- Claim C6 (confirmed): the size check runs only when both the expected
size and the size threshold are non-`None` (either absent disables it with
no error); when it runs, the deviation is `abs(orig - current) / orig`
(dividing by the expected size) and exactly one size error is appended iff
the deviation exceeds the threshold; for expected 1000, threshold 5/100 and
measured 1060 the deviation is 6/100 and exactly one size error (6% versus
5%) is appended. -/
theorem size_check : ∀ (d : FetchData) (tth o th : ℚ), 0 < o →
    ((measure_req (.ok d) (some o) (some th) tth).errors.filter isSizeErr =
      if get_size_diff o (d.size : ℚ) > th then
        [ProbeError.sizeErr (get_size_diff o (d.size : ℚ) * 100) (th * 100)]
      else []) ∧
    (∀ oz : Option ℚ, (measure_req (.ok d) oz none tth).errors.filter isSizeErr = []) ∧
    (∀ tv : ℚ, (measure_req (.ok d) none (some tv) tth).errors.filter isSizeErr = []) ∧
    get_size_diff o (d.size : ℚ) = |o - (d.size : ℚ)| / o ∧
    get_size_diff 1000 1060 = 6 / 100 ∧
    (measure_req (.ok ⟨0, 0, 200, 1060⟩) (some 1000) (some (5 / 100)) tth).errors.filter
        isSizeErr = [ProbeError.sizeErr 6 5] := by
  intro d tth o th _
  refine ⟨?_, ?_, ?_, rfl, ?_, ?_⟩
  · simp only [errors_ok, List.filter_append]
    split_ifs <;> simp [isTimeErr, isSizeErr, isStatusErr]
  · intro oz
    rcases oz with _ | ov <;>
      simp only [errors_ok, List.filter_append] <;>
      split_ifs <;> simp [isTimeErr, isSizeErr, isStatusErr]
  · intro tv
    simp only [errors_ok, List.filter_append]
    split_ifs <;> simp [isTimeErr, isSizeErr, isStatusErr]
  · norm_num [get_size_diff]
  · simp only [errors_ok, List.filter_append]
    have h1 : get_size_diff 1000 ((1060 : ℕ) : ℚ) > 5 / 100 := by
      norm_num [get_size_diff]
    rw [if_pos h1]
    have h2 : get_size_diff 1000 ((1060 : ℕ) : ℚ) * 100 = 6 := by
      norm_num [get_size_diff]
    rw [h2]
    have h3 : (5 : ℚ) / 100 * 100 = 5 := by norm_num
    rw [h3]
    split_ifs <;> simp [isTimeErr, isSizeErr, isStatusErr]

/-- Witness for claim C6 at the concrete configuration of the claim. -/
theorem size_check_w :
    (0 : ℚ) < 1000 ∧
    (measure_req (.ok ⟨0, 0, 200, 1060⟩) (some 1000) (some (5 / 100)) 5).errors.filter
        isSizeErr = [ProbeError.sizeErr 6 5] :=
  ⟨by norm_num, (size_check ⟨0, 0, 200, 1060⟩ 5 1000 (5 / 100) (by norm_num)).2.2.2.2.2⟩

end Watchdog
